import Mathlib

/-!
# Verification of `goph419` binary conversion routines

Shallow embedding of `src/goph419/binary.py` and `examples/binary_example.py`.
Bit arrays are `List Nat` (the Python code stores ints and coerces them to
booleans with `bool(x)`, i.e. truthiness `x ≠ 0`); decimal digit strings are
`String`; the single `raise ValueError` of `bin_add` is an `Except.error`;
the `while` loop of `dec2bin` is given explicit fuel bounding its number of
iterations (the loop condition is still checked first, so the fuel bounds
iterations only).
-/

/-- `int(bool(x))`: the truthiness coercion the source applies to array
elements before operating on them. -/
def bitc (x : Nat) : Nat := if x ≠ 0 then 1 else 0

/-- One full pass of the inner `for k in range(k_max)` loop of `bin_add`:
`res[k] ^= add[k]; add[k] = add[k + 1] & res[k + 1] if k < k_last else 0`.
At index `k` the loop writes `res[k]` and `add[k]` and reads positions `k`
(before the write) and `k + 1` (written only at the later iteration `k + 1`),
so one sequential pass reads only pre-pass values; this recursion carries
those pre-pass values down the list.  The catch-all arm covers unequal
lengths, which `bin_add` rejects before ever running a pass. -/
def bin_add_pass : List Nat → List Nat → List Nat × List Nat
  | [r], [a] => ([r ^^^ a], [0])
  | r :: r2 :: rs, a :: a2 :: as =>
    let p := bin_add_pass (r2 :: rs) (a2 :: as)
    ((r ^^^ a) :: p.1, (a2 &&& r2) :: p.2)
  | _, _ => ([], [])

/-- The outer `for _ in range(k_max)` loop of `bin_add`: apply the pass
`n` times. -/
def bin_add_iter : Nat → List Nat × List Nat → List Nat × List Nat
  | 0, st => st
  | m + 1, st => bin_add_iter m (bin_add_pass st.1 st.2)

/-- Body of `bin_add` after the length check:
`res = [int(bool(x)) for x in a]; add = [int(bool(x)) for x in b]`,
then `k_max` passes of the carry loop, returning `res`. -/
def bin_add_go (a b : List Nat) : List Nat :=
  (bin_add_iter a.length (a.map bitc, b.map bitc)).1

/-- `bin_add(a, b)`: raises `ValueError("a and b have different length")`
when `len(a) != len(b)`, else runs the ripple-carry loop. -/
def bin_add (a b : List Nat) : Except String (List Nat) :=
  if a.length ≠ b.length then Except.error "a and b have different length"
  else Except.ok (bin_add_go a b)

/-- Unwrap an `Except` at a call site where the source never observes the
error (the exceptional value below is never produced on the inputs the
callers pass). -/
def exD (e : Except String (List Nat)) (d : List Nat) : List Nat :=
  match e with
  | Except.ok r => r
  | Except.error _ => d

/-- `bin_value(a)`: `val = 0; dig = 2 ** (len(a) - 1)` then
`for x in a: val += bool(x) * dig; dig //= 2`.  (For `a = []` Python computes
`2 ** -1 = 0.5` but the loop body never runs and `val = 0` is returned;
`2 ^ (0 - 1) = 1` here likewise never multiplies anything.) -/
def bin_value (a : List Nat) : Nat :=
  (a.foldl (fun p x => (p.1 + bitc x * p.2, p.2 / 2)) (0, 2 ^ (a.length - 1))).1

/-- The `while p >= 0` loop of `binary_int32_big`, with the counter `n = p + 1`
counting remaining iterations: `d.append(1 if x >= 2**p else 0); x -= d[-1] * 2**p`. -/
def bigBits : Nat → Nat → List Nat
  | _, 0 => []
  | x, p + 1 =>
    let b := if 2 ^ p ≤ x then 1 else 0
    b :: bigBits (x - b * 2 ^ p) p

/-- `"".join(...)`: concatenation of a list of strings. -/
def strJoin : List String → String
  | [] => ""
  | s :: rest => s ++ strJoin rest

/-- `binary_int32_big(x)`: 32 digits, most significant bit first, by successive
comparison against descending powers of two (claims restrict `x` to
non-negative values, where Python int and `Nat` agree, including the guarded
subtraction). -/
def binary_int32_big (x : Nat) : String :=
  strJoin ((bigBits x 32).map toString)

/-- The `while p < 32` loop of `binary_int32_lit`:
`d.append(x % 2); x //= 2`, with `n` remaining iterations. -/
def litBits : Nat → Nat → List Nat
  | _, 0 => []
  | x, n + 1 => (x % 2) :: litBits (x / 2) n

/-- `binary_int32_lit(x)`: 32 digits, least significant bit first, by repeated
division by two. -/
def binary_int32_lit (x : Nat) : String :=
  strJoin ((litBits x 32).map toString)

/-- The `for k in range(10)` loop of `get_dec2bin_dict`:
`dec2bin[str(k)] = bin; bin = bin_add(bin, one)` with `n` remaining
iterations and `k` the current key. -/
def dictGo : Nat → Nat → List Nat → List (String × List Nat)
  | 0, _, _ => []
  | n + 1, k, bin =>
    (toString k, bin) :: dictGo n (k + 1) (exD (bin_add bin [0, 0, 0, 1]) [])

/-- `get_dec2bin_dict()`: keys `"0"`..`"9"`, values the four-bit binary
representations built by repeated `bin_add` with `one = [0, 0, 0, 1]`
starting from `bin = [0, 0, 0, 0]`. -/
def get_dec2bin_dict : List (String × List Nat) :=
  dictGo 10 0 [0, 0, 0, 0]

/-- `_dec2bin`: the module-level dictionary, built once at import. -/
def dec2binDict : List (String × List Nat) := get_dec2bin_dict

/-- `_dec2bin[key]`: dictionary lookup; `none` models the `KeyError` Python
raises on a missing key. -/
def dictLookup (key : String) : Option (List Nat) :=
  (List.find? (fun p => p.1 == key) dec2binDict).map (fun p => p.2)

/-- `dec2bin_array(s)`: `[_dec2bin[x] for x in s]`, where iterating a Python
string yields its one-character substrings. -/
def dec2bin_array (s : String) : Option (List (List Nat)) :=
  s.data.mapM (fun c => dictLookup (String.mk [c]))

/-- `floor_div_2(a)`: `res = [0 for _ in range(len(a))]; res[1:] = a[:-1]`,
i.e. a `0` is inserted at the most-significant end and the least-significant
bit is dropped (the empty array maps to itself). -/
def floor_div_2 (a : List Nat) : List Nat :=
  match a with
  | [] => []
  | _ => 0 :: a.dropLast

/-- `np.any(rem)`: some element of some group is truthy. -/
def np_any (rem : List (List Nat)) : Bool :=
  rem.any (fun g => g.any (fun b => b != 0))

/-- `x[-1]` on a bit array (the groups `dec2bin` indexes are non-empty; the
default `0` stands where Python would raise `IndexError`). -/
def lastBit (g : List Nat) : Nat := g.getLastD 0

/-- `_dec2bin["5"]`. -/
def dec2binFive : List Nat := (dictLookup "5").getD []

/-- `_dec2bin["0"]`. -/
def dec2binZero : List Nat := (dictLookup "0").getD []

/-- One iteration of the `while` loop of `dec2bin`, after the output bit has
been appended:
`add = [_dec2bin["5"] if x[-1] else _dec2bin["0"] for x in rem[:-1]]`,
`rem = [floor_div_2(x) for x in rem]`,
`rem[1:] = [bin_add(r, a) for r, a in zip(rem[1:], add)]`. -/
def dec2binStep (rem : List (List Nat)) : List (List Nat) :=
  let add := rem.dropLast.map
    (fun x => if lastBit x != 0 then dec2binFive else dec2binZero)
  let shifted := rem.map floor_div_2
  match shifted with
  | [] => []
  | r0 :: rest => r0 :: (rest.zip add).map (fun p => exD (bin_add p.1 p.2) [])

/-- The `while np.any(rem)` loop of `dec2bin` with explicit fuel: the
condition is checked before fuel is consumed, so the fuel only bounds the
number of executed iterations.  Each iteration first appends
`rem[-1][-1]` to `bin`, then updates `rem`. -/
def dec2bin_loop (fuel : Nat) (rem : List (List Nat)) (bin : List Nat) :
    Option (List Nat) :=
  if np_any rem then
    match fuel with
    | 0 => none
    | f + 1 => dec2bin_loop f (dec2binStep rem) (bin ++ [lastBit (rem.getLastD [])])
  else some bin

/-- `dec2bin(s)`: build the BCD groups, run the loop, then
`bin.reverse(); return "0b" + "".join(str(b) for b in bin)`. -/
def dec2bin (fuel : Nat) (s : String) : Option String :=
  match dec2bin_array s with
  | none => none
  | some rem =>
    match dec2bin_loop fuel rem [] with
    | none => none
    | some bin => some ("0b" ++ strJoin (bin.reverse.map toString))

/-- The integer a decimal digit string represents (most-significant digit
first), used to state the round-trip properties. -/
def decValue (s : String) : Nat :=
  s.data.foldl (fun acc c => 10 * acc + (c.toNat - 48)) 0

/-- The numeric digit a character stands for (`'0'` ↦ 0, `'1'` ↦ 1, …),
used to read the digit list back out of a produced binary string. -/
def charDigit (c : Char) : Nat := c.toNat - 48

/-- Modelled from the spec: the spec's round-trip property applies Python's
built-in `int(t, 2)` to the produced string.  `int(t, 2)` accepts an optional
`"0b"` prefix, then requires at least one character, all of them binary
digits, and returns their most-significant-first value; anything else raises
`ValueError` (`none`). -/
def int_base2 (t : String) : Option Nat :=
  let ds := if t.data.take 2 = ['0', 'b'] then t.data.drop 2 else t.data
  if ds = [] then none
  else if ds.all (fun c => c == '0' || c == '1') then
    some (ds.foldl (fun acc c => 2 * acc + (if c = '1' then 1 else 0)) 0)
  else none

/-- The top-level names bound by `goph419/binary.py` (its function
definitions, the module constant, and the `numpy` import). -/
def binaryModuleNames : List String :=
  ["np", "binary_int32_big", "binary_int32_lit", "bin_add", "bin_value",
   "get_dec2bin_dict", "_dec2bin", "dec2bin_array", "floor_div_2", "dec2bin"]

/-- The names `examples/binary_example.py` imports from `goph419.binary`. -/
def exampleImportNames : List String :=
  ["bin_add_4", "bin_value", "dec2bin_array", "floor_div_2", "dec2bin"]

/-- The per-iteration update of `dec2bin` as the claim's sentence reads:
after right-shifting every group, a correction of 5 is added to each digit
group except the least-significant one, exactly when the bit shifted out of
that same group was 1. -/
def dec2binStepSpec (rem : List (List Nat)) : List (List Nat) :=
  rem.dropLast.map
    (fun x => if lastBit x != 0 then exD (bin_add (floor_div_2 x) dec2binFive) []
              else floor_div_2 x)
    ++ (rem.drop (rem.length - 1)).map floor_div_2

/-- Most-significant-first value of a bit list (proof-side restatement of
`bin_value` by structural recursion). -/
def valM : List Nat → Nat
  | [] => 0
  | x :: xs => bitc x * 2 ^ xs.length + valM xs

/-- Least-significant-first value of a bit list. -/
def valL : List Nat → Nat
  | [] => 0
  | x :: xs => bitc x + 2 * valL xs

/-- All entries are genuine bits. -/
def bits01 (l : List Nat) : Prop := ∀ x ∈ l, x ≤ 1

/-- A well-formed BCD digit group: four bits whose value is a decimal digit. -/
def goodGroup (g : List Nat) : Prop :=
  g.length = 4 ∧ bits01 g ∧ valM g ≤ 9

/-- Every group of the `dec2bin` loop state is well formed. -/
def goodState (rem : List (List Nat)) : Prop := ∀ g ∈ rem, goodGroup g

instance bits01_decidable (l : List Nat) : Decidable (bits01 l) :=
  List.decidableBAll (fun x => x ≤ 1) l

instance goodGroup_decidable (g : List Nat) : Decidable (goodGroup g) := by
  unfold goodGroup
  infer_instance

instance goodState_decidable (rem : List (List Nat)) : Decidable (goodState rem) :=
  List.decidableBAll goodGroup rem

/-- The decimal number a list of BCD groups represents (most-significant
digit first). -/
def bcdVal : List (List Nat) → Nat
  | [] => 0
  | g :: rest => valM g * 10 ^ rest.length + bcdVal rest

/-- The least-significant-first binary digits of `n`, with no trailing
zeros: exactly the bit list the `dec2bin` loop accumulates. -/
def pureBits (n : Nat) : List Nat :=
  if h : n = 0 then [] else n % 2 :: pureBits (n / 2)
termination_by n
decreasing_by exact Nat.div_lt_self (Nat.pos_of_ne_zero h) (by decide)

/-- The tail of a `dec2bin` iteration in recursive form: each group is
shifted and then corrected by `_dec2bin["5"]` or `_dec2bin["0"]` according
to the pre-shift last bit `carry` of the group just before it (proved below
to agree with the `zip`-based body of `dec2binStep`). -/
def stepTail : List (List Nat) → Nat → List (List Nat)
  | [], _ => []
  | x :: xs, carry =>
    exD (bin_add (floor_div_2 x)
        (if carry != 0 then dec2binFive else dec2binZero)) []
      :: stepTail xs (lastBit x)

/-- The integer a list of decimal digit characters denotes, most-significant
digit first (recursive restatement of `decValue` for proofs). -/
def decDigitsVal : List Char → Nat
  | [] => 0
  | c :: t => charDigit c * 10 ^ t.length + decDigitsVal t

/-! ## Basic lemmas about values and bits -/

theorem bitc_le_one (x : Nat) : bitc x ≤ 1 := by
  unfold bitc; split <;> omega

theorem bitc_bitc (x : Nat) : bitc (bitc x) = bitc x := by
  unfold bitc; split <;> simp

theorem bitc_of_le_one {x : Nat} (h : x ≤ 1) : bitc x = x := by
  interval_cases x <;> rfl

theorem bin_value_foldl (l : List Nat) : ∀ v : Nat,
    (l.foldl (fun p x => (p.1 + bitc x * p.2, p.2 / 2)) (v, 2 ^ (l.length - 1))).1
      = v + valM l := by
  induction l with
  | nil => intro v; simp [valM]
  | cons x xs ih =>
    intro v
    cases xs with
    | nil => simp [valM]
    | cons y t =>
      have h2 : (2 : Nat) ^ ((x :: y :: t).length - 1) / 2 = 2 ^ ((y :: t).length - 1) := by
        simp [List.length_cons, Nat.pow_succ]
      rw [List.foldl_cons, h2, ih (v + bitc x * 2 ^ ((x :: y :: t).length - 1))]
      simp [valM, List.length_cons]
      ring

theorem bin_value_eq_valM (a : List Nat) : bin_value a = valM a := by
  unfold bin_value
  simpa using bin_value_foldl a 0

theorem valM_lt (l : List Nat) : valM l < 2 ^ l.length := by
  induction l with
  | nil => simp [valM]
  | cons x xs ih =>
    have hb : bitc x * 2 ^ xs.length ≤ 2 ^ xs.length := by
      calc bitc x * 2 ^ xs.length ≤ 1 * 2 ^ xs.length :=
            Nat.mul_le_mul_right _ (bitc_le_one x)
        _ = 2 ^ xs.length := one_mul _
    simp only [valM, List.length_cons, Nat.pow_succ]
    omega

theorem valM_append_bit (l : List Nat) (z : Nat) :
    valM (l ++ [z]) = 2 * valM l + bitc z := by
  induction l with
  | nil => simp [valM]
  | cons x xs ih =>
    rw [List.cons_append]
    show bitc x * 2 ^ (xs ++ [z]).length + valM (xs ++ [z]) = _
    rw [ih, List.length_append]
    simp only [List.length_cons, List.length_nil, Nat.zero_add, Nat.pow_succ, valM]
    ring

theorem valM_reverse (l : List Nat) : valM l.reverse = valL l := by
  induction l with
  | nil => rfl
  | cons x xs ih =>
    rw [List.reverse_cons, valM_append_bit, ih]
    simp [valL]
    ring

theorem valM_map_bitc (l : List Nat) : valM (l.map bitc) = valM l := by
  induction l with
  | nil => rfl
  | cons x xs ih => simp [valM, ih, bitc_bitc]

theorem bits01_map_bitc (l : List Nat) : bits01 (l.map bitc) := by
  intro x hx
  simp only [List.mem_map] at hx
  obtain ⟨y, _, rfl⟩ := hx
  exact bitc_le_one y

theorem valM_eq_zero (l : List Nat) (h : ∀ x ∈ l, x = 0) : valM l = 0 := by
  induction l with
  | nil => rfl
  | cons x xs ih =>
    have hx : x = 0 := h x (by simp)
    have := ih (fun y hy => h y (List.mem_cons_of_mem _ hy))
    simp [valM, hx, bitc, this]

/-! ## `floor_div_2` lemmas -/

theorem floor_div_2_ne_nil (a : List Nat) (h : a ≠ []) :
    floor_div_2 a = 0 :: a.dropLast := by
  cases a with
  | nil => exact absurd rfl h
  | cons x xs => rfl

theorem floor_div_2_length (a : List Nat) :
    (floor_div_2 a).length = a.length := by
  cases a with
  | nil => rfl
  | cons x xs => simp [floor_div_2]

theorem valM_floor_div_2 (a : List Nat) : valM (floor_div_2 a) = valM a / 2 := by
  rcases List.eq_nil_or_concat a with rfl | ⟨L, b, rfl⟩
  · rfl
  · simp only [List.concat_eq_append]
    rw [floor_div_2_ne_nil _ (by simp), List.dropLast_concat]
    have h2 := valM_append_bit L b
    have hb := bitc_le_one b
    have h3 : valM (0 :: L) = valM L := by simp [valM, bitc]
    omega

theorem bits01_floor_div_2 {a : List Nat} (h : bits01 a) :
    bits01 (floor_div_2 a) := by
  cases a with
  | nil => exact h
  | cons x xs =>
    intro y hy
    rw [floor_div_2_ne_nil _ (by simp)] at hy
    rcases List.mem_cons.mp hy with rfl | hy
    · exact Nat.zero_le 1
    · exact h y (List.dropLast_subset _ hy)

/-! ## Claim C6 -/

/-- C6: `floor_div_2` returns an array of the same length obtained by
inserting a `0` at the most-significant end and dropping the
least-significant bit, its value is the floor half of the input's value,
and `floor_div_2 [0,1,0,1] = [0,0,1,0]`. -/
theorem claim_C6_floor_div_2 :
    (∀ a : List Nat,
      (floor_div_2 a).length = a.length ∧
      (a ≠ [] → floor_div_2 a = 0 :: a.dropLast) ∧
      bin_value (floor_div_2 a) = bin_value a / 2) ∧
    floor_div_2 [0, 1, 0, 1] = [0, 0, 1, 0] := by
  refine ⟨fun a => ⟨floor_div_2_length a, floor_div_2_ne_nil a, ?_⟩, by decide⟩
  rw [bin_value_eq_valM, bin_value_eq_valM]
  exact valM_floor_div_2 a

/-- Witness for C6 at the concrete array `[1, 1]`. -/
theorem claim_C6_floor_div_2_witness :
    floor_div_2 [1, 1] = 0 :: [1, 1].dropLast ∧
    bin_value (floor_div_2 [1, 1]) = bin_value [1, 1] / 2 :=
  ⟨(claim_C6_floor_div_2.1 [1, 1]).2.1 (by decide),
   (claim_C6_floor_div_2.1 [1, 1]).2.2⟩

/-! ## Claim C3 -/

theorem bin_add_error_iff (a b : List Nat) :
    (∃ e, bin_add a b = Except.error e) ↔ a.length ≠ b.length := by
  unfold bin_add
  by_cases h : a.length = b.length
  · simp [h]
  · simp [h]

/-- C3: `bin_add` signals its `ValueError` exactly when the operand lengths
differ; in particular `bin_add [0,1] [0,0,1]` errors.  (`bin_add` holds the
only `raise` in the library: every other function is embedded as a total
function, and the dictionary lookups' `KeyError` is an implicit exception,
not an explicitly raised one.) -/
theorem claim_C3_bin_add_error_iff :
    (∀ a b : List Nat,
      (∃ e, bin_add a b = Except.error e) ↔ a.length ≠ b.length) ∧
    (∃ e, bin_add [0, 1] [0, 0, 1] = Except.error e) :=
  ⟨bin_add_error_iff, "a and b have different length", rfl⟩

/-! ## Claim C8 -/

/-- C8: the demonstration script imports `bin_add_4` from `goph419.binary`,
but the module defines no such name (the adder is `bin_add`), so the import
statement fails and `main` never runs to normal termination. -/
theorem claim_C8_import_missing :
    "bin_add_4" ∈ exampleImportNames ∧ "bin_add_4" ∉ binaryModuleNames := by
  decide

/-! ## Claim C10 -/

theorem dec2bin_array_zeros (cs : List Char) (h : ∀ c ∈ cs, c = '0') :
    cs.mapM (fun c => dictLookup (String.mk [c]))
      = some (cs.map (fun _ => [0, 0, 0, 0])) := by
  induction cs with
  | nil => rfl
  | cons c cs ih =>
    have hc : c = '0' := h c (by simp)
    subst hc
    have h0 : dictLookup (String.mk ['0']) = some [0, 0, 0, 0] := by decide
    rw [List.mapM_cons, h0, ih (fun c hc => h c (List.mem_cons_of_mem _ hc))]
    rfl

theorem np_any_zeros (rem : List (List Nat)) (h : ∀ g ∈ rem, g = [0, 0, 0, 0]) :
    np_any rem = false := by
  unfold np_any
  rw [List.any_eq_false]
  intro g hg
  rw [h g hg]
  decide

theorem dec2bin_loop_done {rem : List (List Nat)} {bin : List Nat}
    (h : np_any rem = false) (fuel : Nat) :
    dec2bin_loop fuel rem bin = some bin := by
  unfold dec2bin_loop
  rw [h]
  simp

theorem dec2bin_some_array {fuel : Nat} {s : String} {rem : List (List Nat)}
    (h : dec2bin_array s = some rem) :
    dec2bin fuel s =
      match dec2bin_loop fuel rem [] with
      | none => none
      | some bin => some ("0b" ++ strJoin (bin.reverse.map toString)) := by
  unfold dec2bin
  rw [h]

/-- C10: on a decimal string made only of `'0'` characters the conversion
loop never runs, so `dec2bin` returns exactly the two-character string
`"0b"`, whatever the fuel. -/
theorem claim_C10_dec2bin_all_zero_digits (fuel : Nat) (s : String)
    (h : ∀ c ∈ s.data, c = '0') : dec2bin fuel s = some "0b" := by
  have harr : dec2bin_array s = some (s.data.map (fun _ => [0, 0, 0, 0])) := by
    unfold dec2bin_array
    exact dec2bin_array_zeros s.data h
  have hz : ∀ g ∈ s.data.map (fun _ => [0, 0, 0, 0]), g = [0, 0, 0, 0] := by
    intro g hg
    simp only [List.mem_map] at hg
    obtain ⟨c, _, rfl⟩ := hg
    rfl
  rw [dec2bin_some_array harr, dec2bin_loop_done (np_any_zeros _ hz) fuel]
  rfl

/-- Witness for C10 at `s = "000"`. -/
theorem claim_C10_dec2bin_all_zero_digits_witness :
    dec2bin 3 "000" = some "0b" :=
  claim_C10_dec2bin_all_zero_digits 3 "000" (by decide)

/-! ## The 32-bit encoders (claim C5) -/

theorem bigBits_length (n : Nat) : ∀ x, (bigBits x n).length = n := by
  induction n with
  | zero => intro x; rfl
  | succ n ih =>
    intro x
    simp only [bigBits, List.length_cons, ih]

theorem bits01_bigBits (n : Nat) : ∀ x, bits01 (bigBits x n) := by
  induction n with
  | zero => intro x y hy; simp [bigBits] at hy
  | succ n ih =>
    intro x y hy
    simp only [bigBits] at hy
    rcases List.mem_cons.mp hy with rfl | hy
    · split <;> omega
    · exact ih _ y hy

theorem litBits_length (n : Nat) : ∀ x, (litBits x n).length = n := by
  induction n with
  | zero => intro x; rfl
  | succ n ih =>
    intro x
    simp only [litBits, List.length_cons, ih]

theorem bits01_litBits (n : Nat) : ∀ x, bits01 (litBits x n) := by
  induction n with
  | zero => intro x y hy; simp [litBits] at hy
  | succ n ih =>
    intro x y hy
    simp only [litBits] at hy
    rcases List.mem_cons.mp hy with rfl | hy
    · omega
    · exact ih _ y hy

theorem bigBits_succ (x p : Nat) :
    bigBits x (p + 1) =
      (if 2 ^ p ≤ x then 1 else 0)
        :: bigBits (x - (if 2 ^ p ≤ x then 1 else 0) * 2 ^ p) p := rfl

theorem valM_bigBits (n : Nat) : ∀ x, x < 2 ^ n → valM (bigBits x n) = x := by
  induction n with
  | zero => intro x hx; interval_cases x; rfl
  | succ n ih =>
    intro x hx
    have hp : (2 : Nat) ^ (n + 1) = 2 ^ n * 2 := by ring
    rw [bigBits_succ]
    by_cases hb : 2 ^ n ≤ x
    · rw [if_pos hb, valM, bigBits_length, ih (x - 1 * 2 ^ n) (by omega),
        show bitc 1 = 1 from rfl]
      omega
    · rw [if_neg hb, valM, bigBits_length, ih (x - 0 * 2 ^ n) (by omega),
        show bitc 0 = 0 from rfl]
      omega

theorem bigBits_shift (n : Nat) : ∀ x, x < 2 ^ (n + 1) →
    bigBits x (n + 1) = bigBits (x / 2) n ++ [x % 2] := by
  induction n with
  | zero =>
    intro x hx
    have : x < 2 := hx
    interval_cases x <;> rfl
  | succ n ih =>
    intro x hx
    have hp : (2 : Nat) ^ (n + 1) = 2 ^ n * 2 := by ring
    have hp2 : (2 : Nat) ^ (n + 2) = 2 ^ (n + 1) * 2 := by ring
    by_cases hb : 2 ^ (n + 1) ≤ x
    · have hb' : 2 ^ n ≤ x / 2 := by omega
      rw [bigBits_succ x (n + 1), if_pos hb,
        ih (x - 1 * 2 ^ (n + 1)) (by omega),
        bigBits_succ (x / 2) n, if_pos hb']
      have h2 : (x - 1 * 2 ^ (n + 1)) / 2 = x / 2 - 1 * 2 ^ n := by omega
      have h3 : (x - 1 * 2 ^ (n + 1)) % 2 = x % 2 := by omega
      rw [h2, h3]
      rfl
    · have hb' : ¬ 2 ^ n ≤ x / 2 := by omega
      rw [bigBits_succ x (n + 1), if_neg hb,
        ih (x - 0 * 2 ^ (n + 1)) (by omega),
        bigBits_succ (x / 2) n, if_neg hb']
      have h2 : (x - 0 * 2 ^ (n + 1)) / 2 = x / 2 - 0 * 2 ^ n := by omega
      have h3 : (x - 0 * 2 ^ (n + 1)) % 2 = x % 2 := by omega
      rw [h2, h3]
      rfl

theorem litBits_reverse (n : Nat) : ∀ x, x < 2 ^ n →
    (litBits x n).reverse = bigBits x n := by
  induction n with
  | zero => intro x _; rfl
  | succ n ih =>
    intro x hx
    have hp : (2 : Nat) ^ (n + 1) = 2 ^ n * 2 := by ring
    rw [show litBits x (n + 1) = x % 2 :: litBits (x / 2) n from rfl,
      List.reverse_cons, ih (x / 2) (by omega), bigBits_shift n x hx]

theorem strJoin_bits_data (bs : List Nat) (h : bits01 bs) :
    (strJoin (bs.map toString)).data
      = bs.map (fun b => if b = 0 then '0' else '1') := by
  induction bs with
  | nil => rfl
  | cons b bs ih =>
    have hb : b ≤ 1 := h b (by simp)
    have htail := ih (fun y hy => h y (List.mem_cons_of_mem _ hy))
    rw [List.map_cons, show strJoin (toString b :: bs.map toString)
        = toString b ++ strJoin (bs.map toString) from rfl,
      String.data_append, htail, List.map_cons]
    interval_cases b <;> rfl

theorem map_charDigit_bits (bs : List Nat) (h : bits01 bs) :
    (bs.map (fun b => if b = 0 then '0' else '1')).map charDigit = bs := by
  induction bs with
  | nil => rfl
  | cons b bs ih =>
    have hb : b ≤ 1 := h b (by simp)
    rw [List.map_cons, List.map_cons, ih (fun y hy => h y (List.mem_cons_of_mem _ hy))]
    interval_cases b <;> rfl

/-- C5: for `x < 2^32`, `binary_int32_big x` is a 32-character string of
`'0'`/`'1'` digits (most significant bit first) whose digit list has
`bin_value` exactly `x`, and its character-wise reversal is
`binary_int32_lit x`. -/
theorem claim_C5_binary_int32_big (x : Nat) (hx : x < 2 ^ 32) :
    (binary_int32_big x).length = 32 ∧
    (∀ c ∈ (binary_int32_big x).data, c = '0' ∨ c = '1') ∧
    bin_value ((binary_int32_big x).data.map charDigit) = x ∧
    String.mk (binary_int32_big x).data.reverse = binary_int32_lit x := by
  have hdata : (binary_int32_big x).data
      = (bigBits x 32).map (fun b => if b = 0 then '0' else '1') :=
    strJoin_bits_data _ (bits01_bigBits 32 x)
  have hlit : (binary_int32_lit x).data
      = (litBits x 32).map (fun b => if b = 0 then '0' else '1') :=
    strJoin_bits_data _ (bits01_litBits 32 x)
  refine ⟨?_, ?_, ?_, ?_⟩
  · show (binary_int32_big x).data.length = 32
    rw [hdata, List.length_map, bigBits_length]
  · intro c hc
    rw [hdata] at hc
    simp only [List.mem_map] at hc
    obtain ⟨b, _, rfl⟩ := hc
    split
    · exact Or.inl rfl
    · exact Or.inr rfl
  · rw [hdata, map_charDigit_bits _ (bits01_bigBits 32 x), bin_value_eq_valM]
    exact valM_bigBits 32 x hx
  · apply String.ext
    show (binary_int32_big x).data.reverse = (binary_int32_lit x).data
    rw [hdata, hlit,
      show bigBits x 32 = (litBits x 32).reverse from (litBits_reverse 32 x hx).symm]
    simp [List.map_reverse, List.reverse_reverse]

/-- Witness for C5 at `x = 913`. -/
theorem claim_C5_binary_int32_big_witness :
    (binary_int32_big 913).length = 32 ∧
    (∀ c ∈ (binary_int32_big 913).data, c = '0' ∨ c = '1') ∧
    bin_value ((binary_int32_big 913).data.map charDigit) = 913 ∧
    String.mk (binary_int32_big 913).data.reverse = binary_int32_lit 913 :=
  claim_C5_binary_int32_big 913 (by norm_num)

/-! ## The ripple-carry pass (claims C1, C7) -/

theorem xor_bit_le {x y : Nat} (hx : x ≤ 1) (hy : y ≤ 1) : x ^^^ y ≤ 1 := by
  interval_cases x <;> interval_cases y <;> decide

theorem land_bit_le {x y : Nat} (hx : x ≤ 1) (hy : y ≤ 1) : x &&& y ≤ 1 := by
  interval_cases x <;> interval_cases y <;> decide

theorem bit_add_decomp {x y : Nat} (hx : x ≤ 1) (hy : y ≤ 1) :
    x + y = (x ^^^ y) + 2 * (x &&& y) := by
  interval_cases x <;> interval_cases y <;> decide

theorem headD_le_one {l : List Nat} (h : bits01 l) : l.headD 0 ≤ 1 := by
  cases l with
  | nil => decide
  | cons x xs => exact h x (by simp)

theorem headD_eq_zero {l : List Nat} (h : ∀ z ∈ l, z = 0) : l.headD 0 = 0 := by
  cases l with
  | nil => rfl
  | cons x xs => exact h x (by simp)

theorem bin_add_pass_cons (x y : Nat) (T1 T2 : List Nat)
    (h : T1.length = T2.length) :
    bin_add_pass (x :: T1) (y :: T2)
      = ((x ^^^ y) :: (bin_add_pass T1 T2).1,
         (T2.headD 0 &&& T1.headD 0) :: (bin_add_pass T1 T2).2) := by
  cases T1 with
  | nil =>
    cases T2 with
    | nil => rfl
    | cons b bs => simp at h
  | cons a as =>
    cases T2 with
    | nil => simp at h
    | cons b bs => rfl

theorem bin_add_pass_length (T1 : List Nat) : ∀ T2 : List Nat,
    T1.length = T2.length →
    (bin_add_pass T1 T2).1.length = T1.length ∧
    (bin_add_pass T1 T2).2.length = T1.length := by
  induction T1 with
  | nil =>
    intro T2 h
    cases T2 with
    | nil => exact ⟨rfl, rfl⟩
    | cons y ys => simp at h
  | cons x T1 ih =>
    intro T2 h
    cases T2 with
    | nil => simp at h
    | cons y T2 =>
      have hl : T1.length = T2.length := by simpa using h
      rw [bin_add_pass_cons x y T1 T2 hl]
      simp [(ih T2 hl).1, (ih T2 hl).2]

theorem bin_add_pass_bits (T1 : List Nat) : ∀ T2 : List Nat,
    T1.length = T2.length → bits01 T1 → bits01 T2 →
    bits01 (bin_add_pass T1 T2).1 ∧ bits01 (bin_add_pass T1 T2).2 := by
  induction T1 with
  | nil =>
    intro T2 h _ _
    cases T2 with
    | nil => exact ⟨fun z hz => absurd hz (List.not_mem_nil z), fun z hz => absurd hz (List.not_mem_nil z)⟩
    | cons y ys => simp at h
  | cons x T1 ih =>
    intro T2 h h1 h2
    cases T2 with
    | nil => simp at h
    | cons y T2 =>
      have hl : T1.length = T2.length := by simpa using h
      have hx : x ≤ 1 := h1 x (by simp)
      have hy : y ≤ 1 := h2 y (by simp)
      have ht1 : bits01 T1 := fun z hz => h1 z (List.mem_cons_of_mem _ hz)
      have ht2 : bits01 T2 := fun z hz => h2 z (List.mem_cons_of_mem _ hz)
      obtain ⟨ihp1, ihp2⟩ := ih T2 hl ht1 ht2
      rw [bin_add_pass_cons x y T1 T2 hl]
      constructor
      · intro z hz
        rcases List.mem_cons.mp hz with rfl | hz
        · exact xor_bit_le hx hy
        · exact ihp1 z hz
      · intro z hz
        rcases List.mem_cons.mp hz with rfl | hz
        · exact land_bit_le (headD_le_one ht2) (headD_le_one ht1)
        · exact ihp2 z hz

theorem bin_add_pass_val (T1 : List Nat) : ∀ T2 : List Nat,
    T1.length = T2.length → bits01 T1 → bits01 T2 →
    valM (bin_add_pass T1 T2).1 + valM (bin_add_pass T1 T2).2
      + 2 ^ T1.length * (T1.headD 0 &&& T2.headD 0)
      = valM T1 + valM T2 := by
  induction T1 with
  | nil =>
    intro T2 h _ _
    cases T2 with
    | nil => decide
    | cons y ys => simp at h
  | cons x T1 ih =>
    intro T2 h h1 h2
    cases T2 with
    | nil => simp at h
    | cons y T2 =>
      have hl : T1.length = T2.length := by simpa using h
      have hx : x ≤ 1 := h1 x (by simp)
      have hy : y ≤ 1 := h2 y (by simp)
      have ht1 : bits01 T1 := fun z hz => h1 z (List.mem_cons_of_mem _ hz)
      have ht2 : bits01 T2 := fun z hz => h2 z (List.mem_cons_of_mem _ hz)
      have ihv := ih T2 hl ht1 ht2
      obtain ⟨hl1, hl2⟩ := bin_add_pass_length T1 T2 hl
      rw [bin_add_pass_cons x y T1 T2 hl]
      simp only [valM, List.length_cons, List.headD_cons, hl1, hl2, ← hl]
      rw [bitc_of_le_one (xor_bit_le hx hy),
        bitc_of_le_one (land_bit_le (headD_le_one ht2) (headD_le_one ht1)),
        bitc_of_le_one hx, bitc_of_le_one hy,
        Nat.land_comm (T2.headD 0) (T1.headD 0)]
      have e1 : x * 2 ^ T1.length + y * 2 ^ T1.length
          = (x ^^^ y) * 2 ^ T1.length + 2 * ((x &&& y) * 2 ^ T1.length) := by
        rw [← Nat.add_mul, bit_add_decomp hx hy, Nat.add_mul]
        ring
      have e2 : (2 : Nat) ^ (T1.length + 1) * (x &&& y)
          = 2 * ((x &&& y) * 2 ^ T1.length) := by
        ring
      rw [e2]
      linarith [ihv, e1]

theorem bin_add_pass_zero_snd (T1 : List Nat) : ∀ T2 : List Nat,
    T1.length = T2.length → (∀ z ∈ T2, z = 0) →
    (bin_add_pass T1 T2).1 = T1 ∧ (∀ z ∈ (bin_add_pass T1 T2).2, z = 0) := by
  induction T1 with
  | nil =>
    intro T2 h _
    cases T2 with
    | nil => exact ⟨rfl, fun z hz => absurd hz (List.not_mem_nil z)⟩
    | cons y ys => simp at h
  | cons x T1 ih =>
    intro T2 h h2
    cases T2 with
    | nil => simp at h
    | cons y T2 =>
      have hl : T1.length = T2.length := by simpa using h
      have hy : y = 0 := h2 y (by simp)
      have ht2 : ∀ z ∈ T2, z = 0 := fun z hz => h2 z (List.mem_cons_of_mem _ hz)
      obtain ⟨ih1, ih2⟩ := ih T2 hl ht2
      rw [bin_add_pass_cons x y T1 T2 hl]
      constructor
      · rw [ih1, hy]
        simp [Nat.xor_zero]
      · intro z hz
        rcases List.mem_cons.mp hz with rfl | hz
        · rw [headD_eq_zero ht2]
          simp [Nat.zero_and]
        · exact ih2 z hz

theorem bin_add_iter_nil (m : Nat) : bin_add_iter m ([], []) = ([], []) := by
  induction m with
  | zero => rfl
  | succ m ih => exact ih

theorem bin_add_iter_succ (m : Nat) : ∀ st : List Nat × List Nat,
    bin_add_iter (m + 1) st
      = bin_add_pass (bin_add_iter m st).1 (bin_add_iter m st).2 := by
  induction m with
  | zero => intro st; rfl
  | succ m ih =>
    intro st
    show bin_add_iter (m + 1) (bin_add_pass st.1 st.2) = _
    rw [ih (bin_add_pass st.1 st.2)]
    rfl

theorem bin_add_iter_length (m : Nat) : ∀ T1 T2 : List Nat,
    T1.length = T2.length →
    (bin_add_iter m (T1, T2)).1.length = T1.length ∧
    (bin_add_iter m (T1, T2)).2.length = T1.length := by
  induction m with
  | zero => intro T1 T2 h; exact ⟨rfl, h.symm⟩
  | succ m ih =>
    intro T1 T2 h
    obtain ⟨hp1, hp2⟩ := bin_add_pass_length T1 T2 h
    have hlen : (bin_add_pass T1 T2).1.length = (bin_add_pass T1 T2).2.length := by
      rw [hp1, hp2]
    have hrec := ih (bin_add_pass T1 T2).1 (bin_add_pass T1 T2).2 hlen
    rw [hp1] at hrec
    exact hrec

theorem bin_add_iter_bits (m : Nat) : ∀ T1 T2 : List Nat,
    T1.length = T2.length → bits01 T1 → bits01 T2 →
    bits01 (bin_add_iter m (T1, T2)).1 ∧ bits01 (bin_add_iter m (T1, T2)).2 := by
  induction m with
  | zero => intro T1 T2 _ h1 h2; exact ⟨h1, h2⟩
  | succ m ih =>
    intro T1 T2 h h1 h2
    obtain ⟨hp1, hp2⟩ := bin_add_pass_length T1 T2 h
    obtain ⟨hb1, hb2⟩ := bin_add_pass_bits T1 T2 h h1 h2
    have hlen : (bin_add_pass T1 T2).1.length = (bin_add_pass T1 T2).2.length := by
      rw [hp1, hp2]
    exact ih (bin_add_pass T1 T2).1 (bin_add_pass T1 T2).2 hlen hb1 hb2

theorem bin_add_iter_val (m : Nat) : ∀ T1 T2 : List Nat,
    T1.length = T2.length → bits01 T1 → bits01 T2 →
    (valM (bin_add_iter m (T1, T2)).1 + valM (bin_add_iter m (T1, T2)).2)
        % 2 ^ T1.length
      = (valM T1 + valM T2) % 2 ^ T1.length := by
  induction m with
  | zero => intro T1 T2 _ _ _; rfl
  | succ m ih =>
    intro T1 T2 h h1 h2
    obtain ⟨hp1, hp2⟩ := bin_add_pass_length T1 T2 h
    obtain ⟨hb1, hb2⟩ := bin_add_pass_bits T1 T2 h h1 h2
    have hlen : (bin_add_pass T1 T2).1.length = (bin_add_pass T1 T2).2.length := by
      rw [hp1, hp2]
    have hrec := ih (bin_add_pass T1 T2).1 (bin_add_pass T1 T2).2 hlen hb1 hb2
    rw [hp1] at hrec
    have hval := bin_add_pass_val T1 T2 h h1 h2
    have hmod : (valM (bin_add_pass T1 T2).1 + valM (bin_add_pass T1 T2).2)
        % 2 ^ T1.length = (valM T1 + valM T2) % 2 ^ T1.length := by
      rw [← hval,
        show valM (bin_add_pass T1 T2).1 + valM (bin_add_pass T1 T2).2
            + 2 ^ T1.length * (T1.headD 0 &&& T2.headD 0)
          = valM (bin_add_pass T1 T2).1 + valM (bin_add_pass T1 T2).2
            + (T1.headD 0 &&& T2.headD 0) * 2 ^ T1.length from by ring,
        Nat.add_mul_mod_self_right]
    rw [hmod] at hrec
    exact hrec

theorem bin_add_iter_decomp (m : Nat) : ∀ (x y : Nat) (T1 T2 : List Nat),
    T1.length = T2.length →
    ∃ u v, bin_add_iter m (x :: T1, y :: T2)
      = (u :: (bin_add_iter m (T1, T2)).1, v :: (bin_add_iter m (T1, T2)).2) := by
  induction m with
  | zero => intro x y T1 T2 _; exact ⟨x, y, rfl⟩
  | succ m ih =>
    intro x y T1 T2 h
    have hstep : bin_add_iter (m + 1) (x :: T1, y :: T2)
        = bin_add_iter m (bin_add_pass (x :: T1) (y :: T2)) := rfl
    rw [hstep, bin_add_pass_cons x y T1 T2 h]
    obtain ⟨hp1, hp2⟩ := bin_add_pass_length T1 T2 h
    have hlen : (bin_add_pass T1 T2).1.length = (bin_add_pass T1 T2).2.length := by
      rw [hp1, hp2]
    obtain ⟨u, v, hd⟩ := ih (x ^^^ y) (T2.headD 0 &&& T1.headD 0)
      (bin_add_pass T1 T2).1 (bin_add_pass T1 T2).2 hlen
    rw [hd]
    exact ⟨u, v, rfl⟩

theorem bin_add_iter_zero_snd (T1 : List Nat) : ∀ (T2 : List Nat) (m : Nat),
    T1.length = T2.length → T1.length ≤ m →
    ∀ z ∈ (bin_add_iter m (T1, T2)).2, z = 0 := by
  induction T1 with
  | nil =>
    intro T2 m h _ z hz
    cases T2 with
    | nil =>
      rw [bin_add_iter_nil] at hz
      exact absurd hz (List.not_mem_nil z)
    | cons y ys => simp at h
  | cons x T1 ih =>
    intro T2 m h hm
    cases T2 with
    | nil => simp at h
    | cons y T2 =>
      have hl : T1.length = T2.length := by simpa using h
      obtain ⟨m', rfl⟩ : ∃ m', m = m' + 1 := by
        cases m with
        | zero => simp at hm
        | succ k => exact ⟨k, rfl⟩
      have hm' : T1.length ≤ m' := by
        simp only [List.length_cons] at hm
        omega
      obtain ⟨u, v, hdec⟩ := bin_add_iter_decomp m' x y T1 T2 hl
      obtain ⟨hL1, hL2⟩ := bin_add_iter_length m' T1 T2 hl
      have hA : (bin_add_iter m' (T1, T2)).1.length
          = (bin_add_iter m' (T1, T2)).2.length := by rw [hL1, hL2]
      have hAz : ∀ z ∈ (bin_add_iter m' (T1, T2)).2, z = 0 := ih T2 m' hl hm'
      intro z hz
      rw [bin_add_iter_succ m' (x :: T1, y :: T2), hdec,
        bin_add_pass_cons u v _ _ hA] at hz
      rcases List.mem_cons.mp hz with rfl | hz
      · rw [headD_eq_zero hAz]
        simp
      · exact (bin_add_pass_zero_snd _ _ hA hAz).2 z hz

theorem bin_add_go_spec (a b : List Nat) (h : a.length = b.length) :
    (bin_add_go a b).length = a.length ∧ bits01 (bin_add_go a b) ∧
    valM (bin_add_go a b) = (valM a + valM b) % 2 ^ a.length := by
  have hma : (a.map bitc).length = a.length := by simp
  have hmb : (b.map bitc).length = b.length := by simp
  have hlen : (a.map bitc).length = (b.map bitc).length := by rw [hma, hmb, h]
  have hL := bin_add_iter_length a.length (a.map bitc) (b.map bitc) hlen
  have hB := bin_add_iter_bits a.length (a.map bitc) (b.map bitc) hlen
    (bits01_map_bitc a) (bits01_map_bitc b)
  have hV := bin_add_iter_val a.length (a.map bitc) (b.map bitc) hlen
    (bits01_map_bitc a) (bits01_map_bitc b)
  have hZ := bin_add_iter_zero_snd (a.map bitc) (b.map bitc) a.length hlen
    (by rw [hma])
  rw [hma] at hL hV
  rw [valM_map_bitc, valM_map_bitc] at hV
  have hzero : valM (bin_add_iter a.length (a.map bitc, b.map bitc)).2 = 0 :=
    valM_eq_zero _ hZ
  rw [hzero, Nat.add_zero] at hV
  have hlt : valM (bin_add_iter a.length (a.map bitc, b.map bitc)).1
      < 2 ^ a.length := by
    have := valM_lt (bin_add_iter a.length (a.map bitc, b.map bitc)).1
    rw [hL.1] at this
    exact this
  rw [Nat.mod_eq_of_lt hlt] at hV
  exact ⟨hL.1, hB.1, hV⟩

/-! ## Claim C1 -/

/-- C1: for equal-length bit arrays, `bin_add` succeeds with an array of the
same length whose value is the sum of the operand values modulo
`2 ^ len a`; in particular `bin_add [0,1,1,1] [0,1,0,1] = ok [1,1,0,0]`,
whose value is 12. -/
theorem claim_C1_bin_add_mod_sum :
    (∀ a b : List Nat, a.length = b.length →
      ∃ r, bin_add a b = Except.ok r ∧ r.length = a.length ∧
        bin_value r = (bin_value a + bin_value b) % 2 ^ a.length) ∧
    bin_add [0, 1, 1, 1] [0, 1, 0, 1] = Except.ok [1, 1, 0, 0] ∧
    bin_value [1, 1, 0, 0] = 12 := by
  refine ⟨fun a b h => ?_, rfl, by decide⟩
  obtain ⟨hlen, _, hval⟩ := bin_add_go_spec a b h
  refine ⟨bin_add_go a b, ?_, hlen, ?_⟩
  · unfold bin_add
    rw [if_neg (by omega)]
  · rw [bin_value_eq_valM, bin_value_eq_valM, bin_value_eq_valM]
    exact hval

/-- Witness for C1 at `a = [0,1,1,0]`, `b = [0,0,1,1]`. -/
theorem claim_C1_bin_add_mod_sum_witness :
    ∃ r, bin_add [0, 1, 1, 0] [0, 0, 1, 1] = Except.ok r ∧
      r.length = ([0, 1, 1, 0] : List Nat).length ∧
      bin_value r = (bin_value [0, 1, 1, 0] + bin_value [0, 0, 1, 1])
        % 2 ^ ([0, 1, 1, 0] : List Nat).length :=
  claim_C1_bin_add_mod_sum.1 [0, 1, 1, 0] [0, 0, 1, 1] rfl

/-! ## Claim C7 -/

/-- C7: every array `bin_add` returns has exactly the length of both inputs,
with the overflow silently discarded (the value is reduced modulo
`2 ^ len`), and `floor_div_2` likewise returns an array of its input's
length (the shifted-out bit is dropped, the value being floor-halved). -/
theorem claim_C7_fixed_width :
    (∀ a b r : List Nat, bin_add a b = Except.ok r →
      r.length = a.length ∧ r.length = b.length ∧
      bin_value r = (bin_value a + bin_value b) % 2 ^ a.length) ∧
    (∀ a : List Nat, (floor_div_2 a).length = a.length ∧
      bin_value (floor_div_2 a) = bin_value a / 2) := by
  constructor
  · intro a b r hr
    have hlen : a.length = b.length := by
      by_contra hne
      unfold bin_add at hr
      rw [if_pos hne] at hr
      exact absurd hr (by simp)
    have hr' : r = bin_add_go a b := by
      unfold bin_add at hr
      rw [if_neg (by omega)] at hr
      exact (Except.ok.injEq _ _ ▸ hr.symm :)
    obtain ⟨h1, _, h3⟩ := bin_add_go_spec a b hlen
    subst hr'
    refine ⟨h1, by omega, ?_⟩
    rw [bin_value_eq_valM, bin_value_eq_valM, bin_value_eq_valM]
    exact h3
  · intro a
    refine ⟨floor_div_2_length a, ?_⟩
    rw [bin_value_eq_valM, bin_value_eq_valM]
    exact valM_floor_div_2 a

/-- Witness for C7 at `bin_add [0,1] [1,1] = ok [0,0]`. -/
theorem claim_C7_fixed_width_witness :
    (([0, 0] : List Nat).length = ([0, 1] : List Nat).length ∧
      ([0, 0] : List Nat).length = ([1, 1] : List Nat).length ∧
      bin_value [0, 0] = (bin_value [0, 1] + bin_value [1, 1])
        % 2 ^ ([0, 1] : List Nat).length) :=
  claim_C7_fixed_width.1 [0, 1] [1, 1] [0, 0] rfl

/-! ## BCD group lemmas for `dec2bin` (claims C2, C4, C9) -/

theorem dec2binFive_eq : dec2binFive = [0, 1, 0, 1] := by decide

theorem dec2binZero_eq : dec2binZero = [0, 0, 0, 0] := by decide

theorem exD_bin_add_eq {g a5 : List Nat} (hg : g.length = 4)
    (h5 : a5.length = 4) : exD (bin_add g a5) [] = bin_add_go g a5 := by
  unfold bin_add exD
  rw [if_neg (by omega)]

theorem lastBit_le_one {g : List Nat} (hb : bits01 g) : lastBit g ≤ 1 := by
  rcases List.eq_nil_or_concat g with rfl | ⟨L, z, rfl⟩
  · decide
  · simp only [List.concat_eq_append]
    unfold lastBit
    rw [List.getLastD_concat]
    exact hb z (by simp)

theorem lastBit_parity {g : List Nat} (hb : bits01 g) (hne : g ≠ []) :
    lastBit g = valM g % 2 := by
  rcases List.eq_nil_or_concat g with rfl | ⟨L, z, rfl⟩
  · exact absurd rfl hne
  · simp only [List.concat_eq_append]
    unfold lastBit
    rw [List.getLastD_concat, valM_append_bit,
      bitc_of_le_one (hb z (by simp))]
    have hz : z ≤ 1 := hb z (by simp)
    omega

theorem goodGroup_floor_div_2 {g : List Nat} (h : goodGroup g) :
    (floor_div_2 g).length = 4 ∧ bits01 (floor_div_2 g) ∧
    valM (floor_div_2 g) = valM g / 2 ∧ valM (floor_div_2 g) ≤ 4 := by
  obtain ⟨hl, hb, hv⟩ := h
  refine ⟨by rw [floor_div_2_length, hl], bits01_floor_div_2 hb,
    valM_floor_div_2 g, ?_⟩
  rw [valM_floor_div_2 g]
  omega

theorem group_corrected_spec {g : List Nat} (h4 : g.length = 4)
    (_hb : bits01 g) (hv4 : valM g ≤ 4) (c : Nat) (hc : c ≤ 1) :
    goodGroup (exD (bin_add g (if c != 0 then dec2binFive else dec2binZero)) []) ∧
    valM (exD (bin_add g (if c != 0 then dec2binFive else dec2binZero)) [])
      = valM g + 5 * c := by
  interval_cases c
  · rw [show ((0 : Nat) != 0) = false from rfl, if_neg (by simp), dec2binZero_eq,
      exD_bin_add_eq h4 (by decide)]
    obtain ⟨hl, hbb, hvv⟩ := bin_add_go_spec g [0, 0, 0, 0] (by rw [h4]; rfl)
    have hv0 : valM [0, 0, 0, 0] = 0 := by decide
    rw [hv0, Nat.add_zero, h4] at hvv
    have hmod : valM g % 2 ^ 4 = valM g := Nat.mod_eq_of_lt (by norm_num; omega)
    rw [hmod] at hvv
    exact ⟨⟨by rw [hl, h4], hbb, by omega⟩, by omega⟩
  · rw [show ((1 : Nat) != 0) = true from rfl, if_pos rfl, dec2binFive_eq,
      exD_bin_add_eq h4 (by decide)]
    obtain ⟨hl, hbb, hvv⟩ := bin_add_go_spec g [0, 1, 0, 1] (by rw [h4]; rfl)
    have hv5 : valM [0, 1, 0, 1] = 5 := by decide
    rw [hv5, h4] at hvv
    have hmod : (valM g + 5) % 2 ^ 4 = valM g + 5 := Nat.mod_eq_of_lt (by norm_num; omega)
    rw [hmod] at hvv
    exact ⟨⟨by rw [hl, h4], hbb, by omega⟩, by omega⟩

theorem dec2binStep_nil : dec2binStep [] = [] := rfl

theorem dec2binStep_cons (g : List Nat) (rest : List (List Nat)) :
    dec2binStep (g :: rest)
      = floor_div_2 g
        :: ((rest.map floor_div_2).zip
              ((g :: rest).dropLast.map
                (fun x => if lastBit x != 0 then dec2binFive else dec2binZero))).map
            (fun p => exD (bin_add p.1 p.2) []) := rfl

theorem dec2binStep_eq_stepTail (rest : List (List Nat)) : ∀ g,
    dec2binStep (g :: rest) = floor_div_2 g :: stepTail rest (lastBit g) := by
  induction rest with
  | nil => intro g; rfl
  | cons h t ih =>
    intro g
    rw [dec2binStep_cons]
    have htail := ih h
    rw [dec2binStep_cons] at htail
    have htl := (List.cons.injEq _ _ _ _).mp htail
    rw [show (g :: h :: t).dropLast = g :: (h :: t).dropLast from rfl,
      List.map_cons, List.map_cons, List.zip_cons_cons, List.map_cons]
    rw [show stepTail (h :: t) (lastBit g)
        = exD (bin_add (floor_div_2 h)
            (if lastBit g != 0 then dec2binFive else dec2binZero)) []
          :: stepTail t (lastBit h) from rfl]
    rw [← htl.2]

theorem goodGroup_ne_nil {g : List Nat} (h : goodGroup g) : g ≠ [] := by
  intro hg
  rw [hg] at h
  exact absurd h.1 (by decide)

theorem stepTail_spec (gs : List (List Nat)) : ∀ c : Nat, goodState gs → c ≤ 1 →
    goodState (stepTail gs c) ∧ (stepTail gs c).length = gs.length ∧
    bcdVal (stepTail gs c) = (c * 10 ^ gs.length + bcdVal gs) / 2 := by
  induction gs with
  | nil =>
    intro c _ hc
    refine ⟨fun g hg => absurd hg (List.not_mem_nil g), rfl, ?_⟩
    show (0 : Nat) = (c * 1 + 0) / 2
    omega
  | cons g gs ih =>
    intro c h hc
    have hgg : goodGroup g := h g (by simp)
    obtain ⟨hl4, hb4, hv9⟩ := hgg
    have hrest : goodState gs := fun x hx => h x (List.mem_cons_of_mem _ hx)
    have hlb : lastBit g ≤ 1 := lastBit_le_one hb4
    obtain ⟨ihg, ihl, ihv⟩ := ih (lastBit g) hrest hlb
    obtain ⟨hf4, hfb, hfv, hfle⟩ := goodGroup_floor_div_2 ⟨hl4, hb4, hv9⟩
    obtain ⟨hcg, hcv⟩ := group_corrected_spec hf4 hfb hfle c hc
    rw [show stepTail (g :: gs) c
        = exD (bin_add (floor_div_2 g)
            (if c != 0 then dec2binFive else dec2binZero)) []
          :: stepTail gs (lastBit g) from rfl]
    refine ⟨?_, by simp [ihl], ?_⟩
    · intro x hx
      rcases List.mem_cons.mp hx with rfl | hx
      · exact hcg
      · exact ihg x hx
    · show valM _ * 10 ^ (stepTail gs (lastBit g)).length + bcdVal (stepTail gs (lastBit g)) = _
      rw [ihl, hcv, hfv, ihv, lastBit_parity hb4 (goodGroup_ne_nil ⟨hl4, hb4, hv9⟩)]
      show (valM g / 2 + 5 * c) * 10 ^ gs.length
          + (valM g % 2 * 10 ^ gs.length + bcdVal gs) / 2
        = (c * 10 ^ (g :: gs).length + (valM g * 10 ^ gs.length + bcdVal gs)) / 2
      have hnum : c * 10 ^ (g :: gs).length + (valM g * 10 ^ gs.length + bcdVal gs)
          = 2 * ((valM g / 2 + 5 * c) * 10 ^ gs.length)
            + (valM g % 2 * 10 ^ gs.length + bcdVal gs) := by
        conv_lhs => rw [show valM g = 2 * (valM g / 2) + valM g % 2 from
          (Nat.div_add_mod (valM g) 2).symm]
        simp only [List.length_cons]
        ring
      rw [hnum, Nat.mul_add_div (by norm_num)]

theorem dec2binStep_spec (rem : List (List Nat)) (h : goodState rem) :
    goodState (dec2binStep rem) ∧ (dec2binStep rem).length = rem.length ∧
    bcdVal (dec2binStep rem) = bcdVal rem / 2 := by
  cases rem with
  | nil => exact ⟨h, rfl, rfl⟩
  | cons g gs =>
    have hgg : goodGroup g := h g (by simp)
    obtain ⟨hl4, hb4, hv9⟩ := hgg
    have hrest : goodState gs := fun x hx => h x (List.mem_cons_of_mem _ hx)
    have hlb : lastBit g ≤ 1 := lastBit_le_one hb4
    obtain ⟨ihg, ihl, ihv⟩ := stepTail_spec gs (lastBit g) hrest hlb
    obtain ⟨hf4, hfb, hfv, hfle⟩ := goodGroup_floor_div_2 ⟨hl4, hb4, hv9⟩
    rw [dec2binStep_eq_stepTail]
    refine ⟨?_, by simp [ihl], ?_⟩
    · intro x hx
      rcases List.mem_cons.mp hx with rfl | hx
      · exact ⟨hf4, hfb, by omega⟩
      · exact ihg x hx
    · show valM (floor_div_2 g) * 10 ^ (stepTail gs (lastBit g)).length
          + bcdVal (stepTail gs (lastBit g)) = _
      rw [ihl, hfv, ihv, lastBit_parity hb4 (goodGroup_ne_nil ⟨hl4, hb4, hv9⟩)]
      show valM g / 2 * 10 ^ gs.length
          + (valM g % 2 * 10 ^ gs.length + bcdVal gs) / 2
        = (valM g * 10 ^ gs.length + bcdVal gs) / 2
      have hnum : valM g * 10 ^ gs.length + bcdVal gs
          = 2 * (valM g / 2 * 10 ^ gs.length)
            + (valM g % 2 * 10 ^ gs.length + bcdVal gs) := by
        conv_lhs => rw [show valM g = 2 * (valM g / 2) + valM g % 2 from
          (Nat.div_add_mod (valM g) 2).symm]
        ring
      rw [hnum, Nat.mul_add_div (by norm_num)]

theorem bcdVal_mod_two (L : List (List Nat)) (g : List Nat) :
    bcdVal (L ++ [g]) % 2 = valM g % 2 := by
  induction L with
  | nil =>
    show (valM g * 10 ^ ([] : List (List Nat)).length + 0) % 2 = valM g % 2
    simp
  | cons h t ih =>
    show (valM h * 10 ^ (t ++ [g]).length + bcdVal (t ++ [g])) % 2 = valM g % 2
    simp only [List.length_append, List.length_cons, List.length_nil,
      Nat.zero_add]
    have he : valM h * 10 ^ (t.length + 1) = 2 * (valM h * 5 * 10 ^ t.length) := by
      ring
    omega

theorem emitted_bit (rem : List (List Nat)) (h : goodState rem) (hne : rem ≠ []) :
    lastBit (rem.getLastD []) = bcdVal rem % 2 := by
  rcases List.eq_nil_or_concat rem with rfl | ⟨L, g, rfl⟩
  · exact absurd rfl hne
  · simp only [List.concat_eq_append]
    rw [List.getLastD_concat, bcdVal_mod_two]
    have hg : goodGroup g := h g (by simp)
    exact lastBit_parity hg.2.1 (goodGroup_ne_nil hg)

theorem valM_zero_iff {g : List Nat} (hb : bits01 g) :
    valM g = 0 ↔ ∀ x ∈ g, x = 0 := by
  constructor
  · intro h0
    induction g with
    | nil => intro x hx; exact absurd hx (List.not_mem_nil x)
    | cons x xs ih =>
      have hx : x ≤ 1 := hb x (by simp)
      have hxs : bits01 xs := fun y hy => hb y (List.mem_cons_of_mem _ hy)
      rw [valM] at h0
      have hp : (0 : Nat) < 2 ^ xs.length := Nat.pos_pow_of_pos _ (by norm_num)
      have hprod : bitc x * 2 ^ xs.length = 0 := by omega
      have hbz : bitc x = 0 := by
        rcases Nat.mul_eq_zero.mp hprod with hz | hz
        · exact hz
        · omega
      have hvz : valM xs = 0 := by omega
      intro y hy
      rcases List.mem_cons.mp hy with rfl | hy
      · unfold bitc at hbz
        by_contra hne
        rw [if_pos hne] at hbz
        exact absurd hbz (by decide)
      · exact ih hxs hvz y hy
  · exact valM_eq_zero g

theorem np_any_eq_false_iff (rem : List (List Nat)) :
    np_any rem = false ↔ ∀ g ∈ rem, ∀ b ∈ g, b = 0 := by
  unfold np_any
  simp [List.any_eq_false]

theorem bcdVal_zero_iff (rem : List (List Nat)) (h : goodState rem) :
    bcdVal rem = 0 ↔ ∀ g ∈ rem, ∀ b ∈ g, b = 0 := by
  induction rem with
  | nil =>
    constructor
    · intro _ g hg; exact absurd hg (List.not_mem_nil g)
    · intro _; rfl
  | cons g gs ih =>
    have hgg : goodGroup g := h g (by simp)
    have hrest : goodState gs := fun x hx => h x (List.mem_cons_of_mem _ hx)
    have hp : (0 : Nat) < 10 ^ gs.length := Nat.pos_pow_of_pos _ (by norm_num)
    constructor
    · intro h0
      rw [show bcdVal (g :: gs) = valM g * 10 ^ gs.length + bcdVal gs from rfl] at h0
      have hprod : valM g * 10 ^ gs.length = 0 := by omega
      have hv : valM g = 0 := by
        rcases Nat.mul_eq_zero.mp hprod with hz | hz
        · exact hz
        · omega
      have hrec : bcdVal gs = 0 := by omega
      intro x hx
      rcases List.mem_cons.mp hx with rfl | hx
      · exact (valM_zero_iff hgg.2.1).mp hv
      · exact ((ih hrest).mp hrec) x hx
    · intro hz
      rw [show bcdVal (g :: gs) = valM g * 10 ^ gs.length + bcdVal gs from rfl]
      have h1 : valM g = 0 := (valM_zero_iff hgg.2.1).mpr (hz g (by simp))
      have h2 : bcdVal gs = 0 :=
        (ih hrest).mpr (fun x hx => hz x (List.mem_cons_of_mem _ hx))
      rw [h1, h2]
      simp

theorem pureBits_zero : pureBits 0 = [] := by
  unfold pureBits
  rfl

theorem pureBits_pos {n : Nat} (h : n ≠ 0) :
    pureBits n = n % 2 :: pureBits (n / 2) := by
  conv_lhs => rw [pureBits]
  rw [dif_neg h]

theorem dec2bin_loop_go {rem : List (List Nat)} {bin : List Nat}
    (h : np_any rem = true) (f : Nat) :
    dec2bin_loop (f + 1) rem bin
      = dec2bin_loop f (dec2binStep rem) (bin ++ [lastBit (rem.getLastD [])]) := by
  rw [dec2bin_loop]
  rw [if_pos h]

theorem dec2bin_loop_spec (f : Nat) : ∀ (rem : List (List Nat)) (bin : List Nat),
    goodState rem → bcdVal rem < 2 ^ f →
    dec2bin_loop f rem bin = some (bin ++ pureBits (bcdVal rem)) := by
  induction f with
  | zero =>
    intro rem bin h hlt
    have h0 : bcdVal rem = 0 := by
      have : bcdVal rem < 1 := by simpa using hlt
      omega
    have hfalse : np_any rem = false :=
      (np_any_eq_false_iff rem).mpr ((bcdVal_zero_iff rem h).mp h0)
    rw [dec2bin_loop_done hfalse, h0, pureBits_zero, List.append_nil]
  | succ f ih =>
    intro rem bin h hlt
    by_cases hany : np_any rem = true
    · have hne : rem ≠ [] := by
        intro hr
        rw [hr] at hany
        exact absurd hany (by decide)
      have hnz : bcdVal rem ≠ 0 := by
        intro h0
        rw [(np_any_eq_false_iff rem).mpr ((bcdVal_zero_iff rem h).mp h0)] at hany
        exact Bool.false_ne_true hany
      obtain ⟨hg, _, hv⟩ := dec2binStep_spec rem h
      have hb2 : bcdVal (dec2binStep rem) < 2 ^ f := by
        rw [hv]
        have hp : (2 : Nat) ^ (f + 1) = 2 ^ f * 2 := by ring
        omega
      rw [dec2bin_loop_go hany f, ih (dec2binStep rem) _ hg hb2, hv,
        emitted_bit rem h hne,
        show pureBits (bcdVal rem)
          = bcdVal rem % 2 :: pureBits (bcdVal rem / 2) from pureBits_pos hnz,
        List.append_assoc]
      rfl
    · have hfalse : np_any rem = false := by
        rwa [Bool.not_eq_true] at hany
      have h0 : bcdVal rem = 0 :=
        (bcdVal_zero_iff rem h).mpr ((np_any_eq_false_iff rem).mp hfalse)
      rw [dec2bin_loop_done hfalse, h0, pureBits_zero, List.append_nil]

theorem isDigit_toNat_bounds {c : Char} (h : c.isDigit = true) :
    48 ≤ c.toNat ∧ c.toNat ≤ 57 := by
  unfold Char.isDigit at h
  rw [Bool.and_eq_true] at h
  obtain ⟨h1, h2⟩ := h
  have h1' : (48 : UInt32) ≤ c.val := of_decide_eq_true h1
  have h2' : c.val ≤ (57 : UInt32) := of_decide_eq_true h2
  exact ⟨UInt32.le_toNat_of_le (by decide) h1',
    UInt32.toNat_le_of_le (by decide) h2'⟩

theorem digit_char_eq {c : Char} (h : c.isDigit = true) :
    c = '0' ∨ c = '1' ∨ c = '2' ∨ c = '3' ∨ c = '4' ∨ c = '5' ∨
    c = '6' ∨ c = '7' ∨ c = '8' ∨ c = '9' := by
  obtain ⟨h1, h2⟩ := isDigit_toNat_bounds h
  have hc := Char.ofNat_toNat c
  set n := c.toNat with hn
  interval_cases n <;> (subst hc; decide)

theorem digit_lookup {c : Char} (h : c.isDigit = true) :
    ∃ g, dictLookup (String.mk [c]) = some g ∧ goodGroup g ∧
      valM g = charDigit c := by
  rcases digit_char_eq h with rfl | rfl | rfl | rfl | rfl | rfl | rfl | rfl | rfl | rfl <;>
    exact ⟨_, rfl, by decide, by decide⟩

theorem dec2bin_array_digits (cs : List Char) (h : ∀ c ∈ cs, c.isDigit = true) :
    ∃ rem, cs.mapM (fun c => dictLookup (String.mk [c])) = some rem ∧
      goodState rem ∧ rem.length = cs.length ∧ bcdVal rem = decDigitsVal cs := by
  induction cs with
  | nil =>
    exact ⟨[], rfl, fun g hg => absurd hg (List.not_mem_nil g), rfl, rfl⟩
  | cons c cs ih =>
    obtain ⟨g, hg, hgood, hval⟩ := digit_lookup (h c (by simp))
    obtain ⟨rem, hrem, hgs, hlen, hbcd⟩ :=
      ih (fun x hx => h x (List.mem_cons_of_mem _ hx))
    refine ⟨g :: rem, ?_, ?_, by simp [hlen], ?_⟩
    · rw [List.mapM_cons, hg, hrem]
      rfl
    · intro x hx
      rcases List.mem_cons.mp hx with rfl | hx
      · exact hgood
      · exact hgs x hx
    · show valM g * 10 ^ rem.length + bcdVal rem
        = charDigit c * 10 ^ cs.length + decDigitsVal cs
      rw [hval, hlen, hbcd]

theorem decValue_eq_decDigitsVal (s : String) :
    decValue s = decDigitsVal s.data := by
  suffices h : ∀ (cs : List Char) (acc : Nat),
      List.foldl (fun a c => 10 * a + (c.toNat - 48)) acc cs
        = acc * 10 ^ cs.length + decDigitsVal cs by
    have := h s.data 0
    simpa [decValue] using this
  intro cs
  induction cs with
  | nil => intro acc; simp [decDigitsVal]
  | cons c t ih =>
    intro acc
    rw [List.foldl_cons, ih]
    show (10 * acc + (c.toNat - 48)) * 10 ^ t.length + decDigitsVal t
      = acc * 10 ^ (t.length + 1) + (charDigit c * 10 ^ t.length + decDigitsVal t)
    unfold charDigit
    ring

theorem decDigitsVal_lt (cs : List Char) (h : ∀ c ∈ cs, c.isDigit = true) :
    decDigitsVal cs < 10 ^ cs.length := by
  induction cs with
  | nil => decide
  | cons c t ih =>
    have hd : charDigit c ≤ 9 := by
      obtain ⟨_, h2⟩ := isDigit_toNat_bounds (h c (by simp))
      unfold charDigit
      omega
    have hrec := ih (fun x hx => h x (List.mem_cons_of_mem _ hx))
    have hmul : charDigit c * 10 ^ t.length ≤ 9 * 10 ^ t.length :=
      Nat.mul_le_mul_right _ hd
    have hp : (10 : Nat) ^ (t.length + 1) = 10 * 10 ^ t.length := by ring
    show charDigit c * 10 ^ t.length + decDigitsVal t < 10 ^ (t.length + 1)
    omega

theorem decDigitsVal_pos (cs : List Char) (h : ∀ c ∈ cs, c.isDigit = true) :
    (∃ c ∈ cs, c ≠ '0') → 0 < decDigitsVal cs := by
  induction cs with
  | nil =>
    rintro ⟨c, hc, _⟩
    exact absurd hc (List.not_mem_nil c)
  | cons c t ih =>
    rintro ⟨x, hx, hxne⟩
    have hp : (0 : Nat) < 10 ^ t.length := Nat.pos_pow_of_pos _ (by norm_num)
    show 0 < charDigit c * 10 ^ t.length + decDigitsVal t
    rcases List.mem_cons.mp hx with rfl | hx
    · have hd : 1 ≤ charDigit x := by
        obtain ⟨h1, h2⟩ := isDigit_toNat_bounds (h x (by simp))
        have hne48 : x.toNat ≠ 48 := by
          intro h48
          apply hxne
          rw [← Char.ofNat_toNat x, h48]
        unfold charDigit
        omega
      have := Nat.mul_le_mul_right (10 ^ t.length) hd
      omega
    · have := ih (fun y hy => h y (List.mem_cons_of_mem _ hy)) ⟨x, hx, hxne⟩
      omega

theorem bits01_pureBits (n : Nat) : bits01 (pureBits n) := by
  induction n using Nat.strong_induction_on with
  | _ n ih =>
    by_cases h : n = 0
    · subst h
      rw [pureBits_zero]
      intro x hx
      exact absurd hx (List.not_mem_nil x)
    · rw [pureBits_pos h]
      intro x hx
      rcases List.mem_cons.mp hx with rfl | hx
      · omega
      · exact ih (n / 2) (Nat.div_lt_self (Nat.pos_of_ne_zero h) (by decide)) x hx

theorem valL_pureBits (n : Nat) : valL (pureBits n) = n := by
  induction n using Nat.strong_induction_on with
  | _ n ih =>
    by_cases h : n = 0
    · subst h
      rw [pureBits_zero]
      rfl
    · rw [pureBits_pos h]
      show bitc (n % 2) + 2 * valL (pureBits (n / 2)) = n
      rw [ih (n / 2) (Nat.div_lt_self (Nat.pos_of_ne_zero h) (by decide)),
        bitc_of_le_one (by omega)]
      omega

theorem pureBits_ne_nil {n : Nat} (h : n ≠ 0) : pureBits n ≠ [] := by
  rw [pureBits_pos h]
  simp

theorem horner_chars (bs : List Nat) (h : bits01 bs) : ∀ acc : Nat,
    (bs.map (fun b => if b = 0 then '0' else '1')).foldl
        (fun acc c => 2 * acc + (if c = '1' then 1 else 0)) acc
      = acc * 2 ^ bs.length + valM bs := by
  induction bs with
  | nil => intro acc; simp [valM]
  | cons b t ih =>
    intro acc
    have hb : b ≤ 1 := h b (by simp)
    have hstep : (if (if b = 0 then '0' else '1') = '1' then (1 : Nat) else 0) = b := by
      interval_cases b <;> decide
    rw [List.map_cons, List.foldl_cons, hstep,
      ih (fun y hy => h y (List.mem_cons_of_mem _ hy))]
    show (2 * acc + b) * 2 ^ t.length + valM t
      = acc * 2 ^ (t.length + 1) + (bitc b * 2 ^ t.length + valM t)
    rw [bitc_of_le_one hb]
    ring

theorem int_base2_of_bits (bs : List Nat) (h : bits01 bs) (hne : bs ≠ []) :
    int_base2 ("0b" ++ strJoin (bs.map toString)) = some (valM bs) := by
  have hdata : ("0b" ++ strJoin (bs.map toString)).data
      = '0' :: 'b' :: bs.map (fun b => if b = 0 then '0' else '1') := by
    rw [String.data_append, strJoin_bits_data bs h]
    rfl
  unfold int_base2
  rw [hdata]
  rw [show ('0' :: 'b' :: bs.map (fun b => if b = 0 then '0' else '1')).take 2
      = ['0', 'b'] from rfl]
  rw [if_pos rfl]
  rw [show ('0' :: 'b' :: bs.map (fun b => if b = 0 then '0' else '1')).drop 2
      = bs.map (fun b => if b = 0 then '0' else '1') from rfl]
  have hmapne : bs.map (fun b => if b = 0 then '0' else '1') ≠ [] := by
    intro hmap
    exact hne (List.map_eq_nil_iff.mp hmap)
  rw [if_neg hmapne]
  have hall : (bs.map (fun b => if b = 0 then '0' else '1')).all
      (fun c => c == '0' || c == '1') = true := by
    rw [List.all_eq_true]
    intro c hc
    simp only [List.mem_map] at hc
    obtain ⟨b, _, rfl⟩ := hc
    by_cases hb : b = 0
    · rw [if_pos hb]; decide
    · rw [if_neg hb]; decide
  rw [if_pos hall, horner_chars bs h 0]
  simp

theorem dec2bin_eq_bits (s : String) (h : ∀ c ∈ s.data, c.isDigit = true) :
    dec2bin (4 * s.length) s
      = some ("0b" ++ strJoin ((pureBits (decValue s)).reverse.map toString)) := by
  obtain ⟨rem, hrem, hgood, hlenr, hbcd⟩ := dec2bin_array_digits s.data h
  have harr : dec2bin_array s = some rem := hrem
  have hlt : bcdVal rem < 2 ^ (4 * s.length) := by
    rw [hbcd]
    have h10 := decDigitsVal_lt s.data h
    have hle : (10 : Nat) ^ s.data.length ≤ 2 ^ (4 * s.data.length) := by
      calc (10 : Nat) ^ s.data.length
          ≤ 16 ^ s.data.length := Nat.pow_le_pow_left (by norm_num) _
        _ = 2 ^ (4 * s.data.length) := by
            rw [show (16 : Nat) = 2 ^ 4 from rfl, ← Nat.pow_mul]
    have hsl : s.length = s.data.length := rfl
    rw [hsl]
    omega
  rw [dec2bin_some_array harr,
    dec2bin_loop_spec (4 * s.length) rem [] hgood hlt, hbcd,
    ← decValue_eq_decDigitsVal s]
  rfl

/-! ## Claim C2 (corrected) -/

/-- Counterexample to C2 as stated: `"0"` is a decimal digit string
representing 0, but `dec2bin` returns the bare prefix `"0b"`, which
`int(·, 2)` rejects rather than parsing as 0. -/
theorem claim_C2_counterexample :
    dec2bin 4 "0" = some "0b" ∧ int_base2 "0b" = none := by
  constructor
  · rfl
  · rfl

/-- C2 as amended: for every decimal digit string with at least one nonzero
digit, `dec2bin` (run with fuel `4·len`, enough for its loop) produces a
string that `int(·, 2)` parses back to the represented integer; in
particular `dec2bin "913" = "0b1110010001"`. -/
theorem claim_C2_dec2bin_roundtrip :
    (∀ s : String, (∀ c ∈ s.data, c.isDigit = true) → (∃ c ∈ s.data, c ≠ '0') →
      ∃ out, dec2bin (4 * s.length) s = some out ∧
        int_base2 out = some (decValue s)) ∧
    dec2bin 12 "913" = some "0b1110010001" := by
  constructor
  · intro s hd hnz
    refine ⟨_, dec2bin_eq_bits s hd, ?_⟩
    have hn : 0 < decValue s := by
      rw [decValue_eq_decDigitsVal]
      exact decDigitsVal_pos s.data hd hnz
    have hb01 : bits01 (pureBits (decValue s)).reverse := fun x hx =>
      bits01_pureBits _ x (List.mem_reverse.mp hx)
    have hne : (pureBits (decValue s)).reverse ≠ [] := by
      have hpb : pureBits (decValue s) ≠ [] := pureBits_ne_nil (by omega)
      intro hrev
      apply hpb
      rw [← List.reverse_reverse (pureBits (decValue s)), hrev]
      rfl
    rw [int_base2_of_bits _ hb01 hne, valM_reverse, valL_pureBits]
  · rfl

/-- Witness for the amended C2 at `s = "913"`. -/
theorem claim_C2_dec2bin_roundtrip_witness :
    ∃ out, dec2bin (4 * ("913" : String).length) "913" = some out ∧
      int_base2 out = some (decValue "913") :=
  claim_C2_dec2bin_roundtrip.1 "913" (by decide) (by decide)

/-! ## Claim C9 -/

/-- C9: for every decimal digit string the `dec2bin` loop reaches the
all-zero group state within `4·len` iterations, so the conversion
terminates and returns a string. -/
theorem claim_C9_dec2bin_terminates (s : String)
    (h : ∀ c ∈ s.data, c.isDigit = true) :
    ∃ out, dec2bin (4 * s.length) s = some out :=
  ⟨_, dec2bin_eq_bits s h⟩

/-- Witness for C9 at `s = "913"`. -/
theorem claim_C9_dec2bin_terminates_witness :
    ∃ out, dec2bin (4 * ("913" : String).length) "913" = some out :=
  claim_C9_dec2bin_terminates "913" (by decide)

/-! ## Claim C4 (corrected) -/

theorem dec2binStep_getD (rem : List (List Nat)) (h : goodState rem) :
    ∀ i, i + 1 < rem.length →
      valM ((dec2binStep rem).getD (i + 1) [])
        = valM (rem.getD (i + 1) []) / 2
          + (if lastBit (rem.getD i []) ≠ 0 then 5 else 0) := by
  induction rem with
  | nil => intro i hi; simp at hi
  | cons g rest ih =>
    intro i hi
    rw [dec2binStep_eq_stepTail]
    cases rest with
    | nil => simp at hi
    | cons h2 t =>
      rw [List.getD_cons_succ]
      cases i with
      | zero =>
        rw [show stepTail (h2 :: t) (lastBit g)
            = exD (bin_add (floor_div_2 h2)
                (if lastBit g != 0 then dec2binFive else dec2binZero)) []
              :: stepTail t (lastBit h2) from rfl]
        rw [List.getD_cons_zero]
        have hg : goodGroup g := h g (by simp)
        have hh2 : goodGroup h2 := h h2 (by simp [List.mem_cons])
        obtain ⟨hf4, hfb, hfv, hfle⟩ := goodGroup_floor_div_2 hh2
        have hlb : lastBit g ≤ 1 := lastBit_le_one hg.2.1
        obtain ⟨_, hcv⟩ := group_corrected_spec hf4 hfb hfle (lastBit g) hlb
        rw [hcv, hfv,
          show (g :: h2 :: t).getD (0 + 1) [] = h2 from rfl,
          show (g :: h2 :: t).getD 0 [] = g from rfl]
        by_cases hz : lastBit g = 0
        · rw [hz, if_neg (by omega)]
        · have h1 : lastBit g = 1 := by omega
          rw [h1, if_pos (by omega)]
      | succ j =>
        rw [show stepTail (h2 :: t) (lastBit g)
            = exD (bin_add (floor_div_2 h2)
                (if lastBit g != 0 then dec2binFive else dec2binZero)) []
              :: stepTail t (lastBit h2) from rfl]
        rw [List.getD_cons_succ]
        have hrest : goodState (h2 :: t) := fun x hx => h x (List.mem_cons_of_mem _ hx)
        have hi' : j + 1 < (h2 :: t).length := by
          simp only [List.length_cons] at hi ⊢
          omega
        have hrec := ih hrest j hi'
        rw [dec2binStep_eq_stepTail, List.getD_cons_succ] at hrec
        rw [show (g :: h2 :: t).getD (j + 1 + 1) [] = (h2 :: t).getD (j + 1) [] from rfl,
          show (g :: h2 :: t).getD (j + 1) [] = (h2 :: t).getD j [] from rfl]
        exact hrec

/-- Counterexample to C4 as stated: on the BCD state for `"10"` the code
corrects the less-significant group (using the more significant group's
shifted-out bit) while the claim's reading corrects the non-least-significant
group using its own shifted-out bit; the two disagree. -/
theorem claim_C4_counterexample :
    dec2bin_array "10" = some [[0, 0, 0, 1], [0, 0, 0, 0]] ∧
    dec2binStep [[0, 0, 0, 1], [0, 0, 0, 0]] = [[0, 0, 0, 0], [0, 1, 0, 1]] ∧
    dec2binStepSpec [[0, 0, 0, 1], [0, 0, 0, 0]] = [[0, 1, 0, 1], [0, 0, 0, 0]] ∧
    dec2binStep [[0, 0, 0, 1], [0, 0, 0, 0]]
      ≠ dec2binStepSpec [[0, 0, 0, 1], [0, 0, 0, 0]] :=
  ⟨rfl, rfl, rfl, by decide⟩

/-- C4 as amended: in each `dec2bin` iteration, after the shift the
most-significant group receives no correction, and every other group
receives a correction of 5 exactly when the bit shifted out of the adjacent
more-significant group was 1; each 4-bit group remains a valid BCD digit
(value 0–9). -/
theorem claim_C4_bcd_correction (rem : List (List Nat)) (h : goodState rem) :
    goodState (dec2binStep rem) ∧
    (dec2binStep rem).length = rem.length ∧
    (∀ g rest, rem = g :: rest → (dec2binStep rem).headD [] = floor_div_2 g) ∧
    (∀ i, i + 1 < rem.length →
      valM ((dec2binStep rem).getD (i + 1) [])
        = valM (rem.getD (i + 1) []) / 2
          + (if lastBit (rem.getD i []) ≠ 0 then 5 else 0)) := by
  obtain ⟨h1, h2, _⟩ := dec2binStep_spec rem h
  refine ⟨h1, h2, ?_, dec2binStep_getD rem h⟩
  intro g rest hrem
  subst hrem
  rw [dec2binStep_eq_stepTail]
  rfl

/-- Witness for the amended C4 on the BCD state for `"10"`. -/
theorem claim_C4_bcd_correction_witness :
    valM ((dec2binStep [[0, 0, 0, 1], [0, 0, 0, 0]]).getD 1 [])
      = valM ([[0, 0, 0, 1], [0, 0, 0, 0]].getD 1 []) / 2
        + (if lastBit ([[0, 0, 0, 1], [0, 0, 0, 0]].getD 0 []) ≠ 0 then 5 else 0) :=
  (claim_C4_bcd_correction [[0, 0, 0, 1], [0, 0, 0, 0]] (by decide)).2.2.2 0
    (by decide)
